import Mathlib

/-!
Verification of the DeepFilterNet2 signal-processing core
(src/DeepFilterNet/df/modules.py) against its natural-language
specification.

Embedding conventions:
* Complex spectral values are pairs (real, imaginary), mirroring the
  trailing `[..., 2]` tensor dimension used throughout `modules.py`.
* Tensors indexed by time / frequency / filter-order are embedded as
  functions out of natural-number indices; only indices below the
  relevant bound are ever read by the operators.
* The Deep Filtering operator, the ERB filterbank and the grouped blocks
  involve only field arithmetic and are embedded over the rationals, so
  all of their values are exactly computable.  The unit normalizer and
  the masking stage involve square roots, sines and powers and are
  embedded over the reals.
-/

set_option maxHeartbeats 1000000

/-- Complex value as a (real, imaginary) pair of rationals. -/
abbrev CQ : Type := ℚ × ℚ

/-- The complex zero `(0, 0)` used for zero padding. -/
def czero : CQ := (0, 0)

/-- Complex addition on (re, im) pairs. -/
def cadd (a b : CQ) : CQ := (a.1 + b.1, a.2 + b.2)

/-- Complex multiplication on (re, im) pairs, exactly as accumulated by
`DfOp.forward_real_loop` (re: `p0*c0 - p1*c1`, im: `p1*c0 + p0*c1`). -/
def cmul (a b : CQ) : CQ := (a.1 * b.1 - a.2 * b.2, a.2 * b.1 + a.1 * b.2)

/-- Scaling of a complex pair by a real scalar (broadcast multiply). -/
def csmul (r : ℚ) (a : CQ) : CQ := (r * a.1, r * a.2)

/-- `spec[..., :df, :]`: restriction of a spectrum to the lowest `df`
frequency bins (bins at index `≥ df` read as zero, i.e. absent). -/
def truncSpec (x : ℕ → ℕ → CQ) (df : ℕ) : ℕ → ℕ → CQ :=
  fun t f => if f < df then x t f else czero

/-- `spec_pad` (modules.py line 399): zero-pad the time axis of a
`T`-frame spectrum with `window_size - lookahead - 1 = O - L - 1` frames
in front and `L` frames at the back. -/
def spec_pad (x : ℕ → ℕ → CQ) (T O L : ℕ) : ℕ → ℕ → CQ :=
  fun i f =>
    if i < O - L - 1 then czero
    else if i - (O - L - 1) < T then x (i - (O - L - 1)) f
    else czero

/-- `assign_df` (modules.py line 388) specialized to one output frame:
bins below `df` receive `spec_f * alpha + spec * (1 - alpha)` (or
`spec_f` outright when no alpha is given); all other bins pass the input
frame through. -/
def assign_df (specFrame specF : ℕ → CQ) (df : ℕ) (alpha : Option ℚ) : ℕ → CQ :=
  fun f =>
    if f < df then
      match alpha with
      | some a => cadd (csmul a (specF f)) (csmul (1 - a) (specFrame f))
      | none => specF f
    else specFrame f

/-- `DfOp.forward_real_loop` (modules.py line 270): batch evaluation.
The spectrum restricted to the first `df` bins is zero padded over time,
and output frame `t` accumulates `padded[i + t] * coefs[t, i]` over the
filter order `i < O`, then blends via `assign_df`. -/
def forward_real_loop (x : ℕ → ℕ → CQ) (coefs : ℕ → ℕ → ℕ → CQ)
    (alpha : Option (ℕ → ℚ)) (T O L df : ℕ) : ℕ → ℕ → CQ :=
  fun t =>
    assign_df (x t)
      (fun g => ∑ i ∈ Finset.range O,
        cmul (spec_pad (truncSpec x df) T O L (i + t) g) (coefs t i g))
      df (alpha.map fun a => a t)

/-- `DfOp.forward_real_no_pad_one_step` (modules.py line 340): one
streaming step.  `w` is the externally managed `O`-frame spectrogram
buffer, `coefs` a single frame of coefficients; the "current" input
frame is buffer entry `O - L - 1`. -/
def forward_real_no_pad_one_step (w : ℕ → ℕ → CQ) (coefs : ℕ → ℕ → CQ)
    (alpha : Option ℚ) (O L df : ℕ) : ℕ → CQ :=
  assign_df (w (O - L - 1))
    (fun g => ∑ k ∈ Finset.range O, cmul (truncSpec w df k g) (coefs k g))
    df alpha

/-- Driving `forward_real_no_pad_one_step` over a whole stream exactly as
`test_dfop` (modules.py line 783) does: at step `t` the buffer window is
frames `t .. t+O-1` of the zero-padded spectrum, i.e. the ring buffer
after dropping the oldest frame and inserting the newest. -/
def dfOneStepStream (x : ℕ → ℕ → CQ) (coefs : ℕ → ℕ → ℕ → CQ)
    (alpha : ℕ → ℚ) (T O L df : ℕ) : ℕ → ℕ → CQ :=
  fun t =>
    forward_real_no_pad_one_step (fun k g => spec_pad x T O L (t + k) g)
      (coefs t) (some (alpha t)) O L df

/-- `self.spec_buf.roll(-1, dims=2)` followed by `self.spec_buf[:, :, -1]
= spec[:, :, t]` (modules.py lines 372-373): every buffer slot takes the
value of its successor and the newest frame lands in slot `O - 1`. -/
def roll_insert (buf : ℕ → ℕ → CQ) (O : ℕ) (frame : ℕ → CQ) : ℕ → ℕ → CQ :=
  fun k f => if k + 1 = O then frame f else buf (k + 1) f

/-- The internal spectrogram buffer of `forward_real_hidden_state_loop`
after frames `0 .. t` have been inserted, starting from the all-zero
buffer registered in `DfOp.set_forward` (modules.py line 265). -/
def spec_buf (x : ℕ → ℕ → CQ) (O : ℕ) : ℕ → ℕ → ℕ → CQ
  | 0 => roll_insert (fun _ _ => czero) O (x 0)
  | t + 1 => roll_insert (spec_buf x O t) O (x (t + 1))

/-- `DfOp.forward_real_hidden_state_loop` (modules.py line 364): per
frame, roll the internal buffer, insert the newest frame, apply the
one-step complex multiply-accumulate over the buffer and blend onto
buffer entry `O - L - 1` via `assign_df` with the per-frame alpha. -/
def forward_real_hidden_state_loop (x : ℕ → ℕ → CQ) (coefs : ℕ → ℕ → ℕ → CQ)
    (alpha : ℕ → ℚ) (O L df : ℕ) : ℕ → ℕ → CQ :=
  fun t =>
    assign_df (spec_buf x O t (O - L - 1))
      (fun g => ∑ k ∈ Finset.range O,
        cmul (truncSpec (spec_buf x O t) df k g) (coefs t k g))
      df (some (alpha t))

/-- `assign_df` only reads its frame arguments at the output bin, and the
refined estimate only below `df`. -/
theorem assign_df_congr (s1 s2 F1 F2 : ℕ → CQ) (df : ℕ) (a : Option ℚ) (f : ℕ)
    (hs : s1 f = s2 f) (hF : f < df → F1 f = F2 f) :
    assign_df s1 F1 df a f = assign_df s2 F2 df a f := by
  unfold assign_df
  by_cases hf : f < df
  · simp only [hf, if_true, hF hf, hs]
  · simp only [hf, if_false, hs]

/-- Padding the truncated spectrum agrees with padding the raw spectrum
on every bin below `df`. -/
theorem spec_pad_trunc (x : ℕ → ℕ → CQ) (df T O L i f : ℕ) (hf : f < df) :
    spec_pad (truncSpec x df) T O L i f = spec_pad x T O L i f := by
  unfold spec_pad truncSpec
  split
  · rfl
  · split
    · simp only [hf, if_true]
    · rfl

/-- Below `df`, the truncated spectrum reads through to the spectrum. -/
theorem truncSpec_lt (w : ℕ → ℕ → CQ) (df k f : ℕ) (hf : f < df) :
    truncSpec w df k f = w k f := if_pos hf

/-- The padded stream at offset `t + (O - L - 1)` is input frame `t`. -/
theorem spec_pad_current (x : ℕ → ℕ → CQ) (T O L t f : ℕ) (ht : t < T) :
    spec_pad x T O L (t + (O - L - 1)) f = x t f := by
  unfold spec_pad
  rw [if_neg (by omega)]
  have h1 : t + (O - L - 1) - (O - L - 1) = t := by omega
  rw [h1, if_pos ht]

/-- The internal ring buffer of `forward_real_hidden_state_loop` equals a
sliding window over the zero-padded stream (lookahead 0): after frames
`0 .. t` have been inserted, buffer slot `k` holds padded frame `t + k`. -/
theorem spec_buf_eq_pad (x : ℕ → ℕ → CQ) (T O : ℕ) :
    ∀ t, t < T → ∀ k, k < O → ∀ f,
      spec_buf x O t k f = spec_pad x T O 0 (t + k) f := by
  intro t
  induction t with
  | zero =>
    intro hT k hk f
    simp only [spec_buf, roll_insert, spec_pad]
    by_cases hkO : k + 1 = O
    · have hidx : 0 + k - (O - 0 - 1) = 0 := by omega
      rw [if_pos hkO, if_neg (show ¬(0 + k < O - 0 - 1) by omega),
        if_pos (show 0 + k - (O - 0 - 1) < T by omega), hidx]
    · rw [if_neg hkO, if_pos (show 0 + k < O - 0 - 1 by omega)]
  | succ t ih =>
    intro hT k hk f
    simp only [spec_buf, roll_insert]
    by_cases hkO : k + 1 = O
    · simp only [spec_pad]
      have hidx : t + 1 + k - (O - 0 - 1) = t + 1 := by omega
      rw [if_pos hkO, if_neg (show ¬(t + 1 + k < O - 0 - 1) by omega),
        if_pos (show t + 1 + k - (O - 0 - 1) < T by omega), hidx]
    · have harg : t + 1 + k = t + (k + 1) := by omega
      rw [if_neg hkO, harg, ← ih (by omega) (k + 1) (by omega) f]

/-- C1: for every spectrum, coefficient array and per-frame alpha, batch
evaluation (`forward_real_loop`) and streaming one-step evaluation agree
frame-by-frame and bin-by-bin: first conjunct for
`forward_real_no_pad_one_step` driven over the zero-padded stream with
the rotating `O`-frame window (as in `test_dfop`), for every lookahead
`L < O`; second conjunct for `forward_real_hidden_state_loop` with its
internal zero-initialized ring buffer (whose buffer indexing realizes
lookahead 0).  The embedding uses exact rational arithmetic, so exact
equality implies agreement within any tolerance, in particular 1e-5
relative tolerance. -/
theorem df_stream_eq_batch (x : ℕ → ℕ → CQ) (coefs : ℕ → ℕ → ℕ → CQ)
    (alpha : ℕ → ℚ) (T O L df : ℕ) (hL : L < O) :
    (∀ t, t < T → ∀ f,
      dfOneStepStream x coefs alpha T O L df t f
        = forward_real_loop x coefs (some alpha) T O L df t f)
    ∧ (L = 0 → ∀ t, t < T → ∀ f,
      forward_real_hidden_state_loop x coefs alpha O L df t f
        = forward_real_loop x coefs (some alpha) T O L df t f) := by
  constructor
  · intro t ht f
    unfold dfOneStepStream forward_real_no_pad_one_step forward_real_loop
    apply assign_df_congr
    · exact spec_pad_current x T O L t f ht
    · intro hf
      apply Finset.sum_congr rfl
      intro k _
      rw [truncSpec_lt _ df k f hf, spec_pad_trunc x df T O L (k + t) f hf,
        Nat.add_comm k t]
  · rintro rfl t ht f
    unfold forward_real_hidden_state_loop forward_real_loop
    apply assign_df_congr
    · rw [spec_buf_eq_pad x T O t ht (O - 0 - 1) (by omega) f]
      exact spec_pad_current x T O 0 t f ht
    · intro hf
      apply Finset.sum_congr rfl
      intro k hk
      rw [truncSpec_lt _ df k f hf,
        spec_buf_eq_pad x T O t ht k (Finset.mem_range.mp hk) f,
        spec_pad_trunc x df T O 0 (k + t) f hf, Nat.add_comm t k]

theorem df_stream_eq_batch_witness :
    dfOneStepStream (fun _ _ => czero) (fun _ _ _ => czero) (fun _ => 0) 1 2 0 1 0 0
      = forward_real_loop (fun _ _ => czero) (fun _ _ _ => czero) (some fun _ => 0) 1 2 0 1 0 0
    ∧ forward_real_hidden_state_loop (fun _ _ => czero) (fun _ _ _ => czero) (fun _ => 0) 2 0 1 0 0
      = forward_real_loop (fun _ _ => czero) (fun _ _ _ => czero) (some fun _ => 0) 1 2 0 1 0 0 := by
  have h := df_stream_eq_batch (fun _ _ => czero) (fun _ _ _ => czero)
    (fun _ => 0) 1 2 0 1 (by decide)
  exact ⟨h.1 0 (by decide) 0, h.2 rfl 0 (by decide) 0⟩

/-- C5: every frequency bin at index `≥ df_bins` passes through unchanged
from the input spectrum, in batch mode, in streaming one-step mode driven
over the zero-padded stream, and in the hidden-state ring-buffer mode
(which realizes lookahead 0). -/
theorem df_untouched_bins (x : ℕ → ℕ → CQ) (coefs : ℕ → ℕ → ℕ → CQ)
    (alpha : ℕ → ℚ) (T O L df : ℕ) (hL : L < O) :
    (∀ t f, df ≤ f → forward_real_loop x coefs (some alpha) T O L df t f = x t f)
    ∧ (∀ t, t < T → ∀ f, df ≤ f →
        dfOneStepStream x coefs alpha T O L df t f = x t f)
    ∧ (L = 0 → ∀ t, t < T → ∀ f, df ≤ f →
        forward_real_hidden_state_loop x coefs alpha O L df t f = x t f) := by
  refine ⟨?_, ?_, ?_⟩
  · intro t f hf
    unfold forward_real_loop assign_df
    rw [if_neg (by omega)]
  · intro t ht f hf
    unfold dfOneStepStream forward_real_no_pad_one_step assign_df
    rw [if_neg (by omega)]
    exact spec_pad_current x T O L t f ht
  · rintro rfl t ht f hf
    unfold forward_real_hidden_state_loop assign_df
    rw [if_neg (by omega), spec_buf_eq_pad x T O t ht (O - 0 - 1) (by omega) f]
    exact spec_pad_current x T O 0 t f ht

theorem df_untouched_bins_witness :
    forward_real_loop (fun _ _ => ((1:ℚ), (2:ℚ))) (fun _ _ _ => czero)
        (some fun _ => 0) 1 2 0 1 0 1 = ((1:ℚ), (2:ℚ))
    ∧ dfOneStepStream (fun _ _ => ((1:ℚ), (2:ℚ))) (fun _ _ _ => czero)
        (fun _ => 0) 1 2 0 1 0 1 = ((1:ℚ), (2:ℚ))
    ∧ forward_real_hidden_state_loop (fun _ _ => ((1:ℚ), (2:ℚ))) (fun _ _ _ => czero)
        (fun _ => 0) 2 0 1 0 1 = ((1:ℚ), (2:ℚ)) := by
  have h := df_untouched_bins (fun _ _ => ((1:ℚ), (2:ℚ))) (fun _ _ _ => czero)
    (fun _ => 0) 1 2 0 1 (by decide)
  exact ⟨h.1 0 1 (by decide), h.2.1 0 (by decide) 1 (by decide),
    h.2.2 rfl 0 (by decide) 1 (by decide)⟩

/-- C6: on the touched bins (`f < df_bins`), `assign_df` blends as
`alpha * refined + (1 - alpha) * original`; with `alpha = 0` the output
is exactly the original spectrum value, with `alpha = 1` exactly the raw
refined value, and with no alpha the refined value replaces the original
outright. -/
theorem assign_df_blend (sFrame sF : ℕ → CQ) (df : ℕ) (a : ℚ) (f : ℕ)
    (hf : f < df) :
    assign_df sFrame sF df (some a) f
        = cadd (csmul a (sF f)) (csmul (1 - a) (sFrame f))
    ∧ assign_df sFrame sF df (some 0) f = sFrame f
    ∧ assign_df sFrame sF df (some 1) f = sF f
    ∧ assign_df sFrame sF df none f = sF f := by
  refine ⟨?_, ?_, ?_, ?_⟩
  · simp [assign_df, hf]
  · simp [assign_df, cadd, csmul, hf]
  · simp [assign_df, cadd, csmul, hf]
  · simp [assign_df, hf]

theorem assign_df_blend_witness :
    assign_df (fun _ => czero) (fun _ => ((1:ℚ), (0:ℚ))) 1 (some (1/2)) 0
        = cadd (csmul (1/2) ((1:ℚ), (0:ℚ))) (csmul (1 - 1/2) czero)
    ∧ assign_df (fun _ => czero) (fun _ => ((1:ℚ), (0:ℚ))) 1 (some 0) 0 = czero
    ∧ assign_df (fun _ => czero) (fun _ => ((1:ℚ), (0:ℚ))) 1 (some 1) 0 = ((1:ℚ), (0:ℚ))
    ∧ assign_df (fun _ => czero) (fun _ => ((1:ℚ), (0:ℚ))) 1 none 0 = ((1:ℚ), (0:ℚ)) :=
  assign_df_blend (fun _ => czero) (fun _ => ((1:ℚ), (0:ℚ))) 1 (1/2) 0 (by decide)

/-- `b_pts` (modules.py line 140): cumulative band start points,
`b_pts i = widths[0] + ... + widths[i-1]`. -/
def b_pts (widths : List ℕ) (i : ℕ) : ℕ := (widths.take i).sum

/-- The raw binary membership matrix of `erb_fb` (modules.py lines
142-144): entry (row `r` = linear bin, column `i` = band) is 1 exactly
when `b_pts i ≤ r < b_pts i + widths[i]`.  The number of rows `n_freqs`
is derived by the code as `sum(widths)` (line 137); the sample rate only
feeds `all_freqs`, whose values are never used, so it is omitted. -/
def erb_fb_raw (widths : List ℕ) (r i : ℕ) : ℚ :=
  if b_pts widths i ≤ r ∧ r < b_pts widths i + widths.getD i 0 then 1 else 0

/-- `erb_fb` (modules.py line 136): forward matrix is the membership
matrix, columns divided by their sums when `normalized`; inverse matrix
is the transpose, rows divided by their sums when not `normalized`.
The construction is total: the code contains no validation or raise. -/
def erb_fb (widths : List ℕ) (normalized inverse : Bool) : ℕ → ℕ → ℚ :=
  fun r c =>
    if inverse then
      if normalized then erb_fb_raw widths c r
      else erb_fb_raw widths c r
        / ∑ j ∈ Finset.range widths.sum, erb_fb_raw widths j r
    else
      if normalized then erb_fb_raw widths r c
        / ∑ j ∈ Finset.range widths.sum, erb_fb_raw widths j c
      else erb_fb_raw widths r c

theorem b_pts_cons (w : ℕ) (ws : List ℕ) (i : ℕ) :
    b_pts (w :: ws) (i + 1) = w + b_pts ws i := by
  simp [b_pts]

theorem b_pts_zero (widths : List ℕ) : b_pts widths 0 = 0 := rfl

theorem erb_fb_raw_cons_succ (w : ℕ) (ws : List ℕ) (r i : ℕ) (hw : w ≤ r) :
    erb_fb_raw (w :: ws) r (i + 1) = erb_fb_raw ws (r - w) i := by
  unfold erb_fb_raw
  rw [b_pts_cons]
  have hgd : (w :: ws).getD (i + 1) 0 = ws.getD i 0 := rfl
  rw [hgd]
  by_cases h : b_pts ws i ≤ r - w ∧ r - w < b_pts ws i + ws.getD i 0
  · rw [if_pos (by omega), if_pos h]
  · rw [if_neg (by omega), if_neg h]

theorem erb_fb_raw_cons_lt (w : ℕ) (ws : List ℕ) (r i : ℕ) (hr : r < w) :
    erb_fb_raw (w :: ws) r (i + 1) = 0 := by
  unfold erb_fb_raw
  rw [b_pts_cons, if_neg (by omega)]

theorem erb_fb_raw_cons_zero (w : ℕ) (ws : List ℕ) (r : ℕ) :
    erb_fb_raw (w :: ws) r 0 = if r < w then 1 else 0 := by
  unfold erb_fb_raw
  have h1 : b_pts (w :: ws) 0 = 0 := rfl
  have h2 : (w :: ws).getD 0 0 = w := rfl
  rw [h1, h2]
  by_cases h : r < w
  · rw [if_pos (by omega), if_pos h]
  · rw [if_neg (by omega), if_neg h]

/-- Each linear bin below `sum(widths)` belongs to exactly one band:
the raw membership rows sum to 1. -/
theorem erb_raw_rowsum (widths : List ℕ) :
    ∀ r, r < widths.sum →
      ∑ i ∈ Finset.range widths.length, erb_fb_raw widths r i = 1 := by
  induction widths with
  | nil => intro r hr; simp [List.sum_nil] at hr
  | cons w ws ih =>
    intro r hr
    rw [List.length_cons, Finset.sum_range_succ']
    by_cases hrw : r < w
    · rw [erb_fb_raw_cons_zero, if_pos hrw,
        Finset.sum_eq_zero (fun i _ => erb_fb_raw_cons_lt w ws r i hrw)]
      norm_num
    · rw [erb_fb_raw_cons_zero, if_neg hrw,
        Finset.sum_congr rfl (fun i _ => erb_fb_raw_cons_succ w ws r i (by omega)),
        ih (r - w) (by simp [List.sum_cons] at hr; omega)]
      norm_num

theorem sum_ind_interval (n a w : ℕ) (h : a + w ≤ n) :
    ∑ r ∈ Finset.range n, (if a ≤ r ∧ r < a + w then (1 : ℚ) else 0) = w := by
  rw [Finset.sum_boole]
  have hset : (Finset.range n).filter (fun r => a ≤ r ∧ r < a + w)
      = Finset.Ico a (a + w) := by
    ext r
    simp only [Finset.mem_filter, Finset.mem_range, Finset.mem_Ico]
    omega
  rw [hset, Nat.card_Ico, Nat.add_sub_cancel_left]

theorem b_pts_add_le (widths : List ℕ) :
    ∀ i, i < widths.length → b_pts widths i + widths.getD i 0 ≤ widths.sum := by
  induction widths with
  | nil => intro i hi; simp at hi
  | cons w ws ih =>
    intro i hi
    cases i with
    | zero =>
      have h1 : b_pts (w :: ws) 0 = 0 := rfl
      have h2 : (w :: ws).getD 0 0 = w := rfl
      rw [h1, h2, List.sum_cons]
      omega
    | succ i =>
      rw [b_pts_cons, List.sum_cons]
      have h2 : (w :: ws).getD (i + 1) 0 = ws.getD i 0 := rfl
      rw [h2]
      have := ih i (by simpa using hi)
      omega

/-- Each band's raw membership column sums to exactly its width. -/
theorem erb_raw_colsum (widths : List ℕ) (i : ℕ) (hi : i < widths.length) :
    ∑ r ∈ Finset.range widths.sum, erb_fb_raw widths r i
      = (widths.getD i 0 : ℚ) := by
  simp only [erb_fb_raw]
  exact sum_ind_interval widths.sum (b_pts widths i) (widths.getD i 0)
    (b_pts_add_le widths i hi)

theorem erb_fb_raw_ge_sum (widths : List ℕ) (i r : ℕ) (hi : i < widths.length)
    (hr : widths.sum ≤ r) : erb_fb_raw widths r i = 0 := by
  unfold erb_fb_raw
  rw [if_neg (by have := b_pts_add_le widths i hi; omega)]

/-- C7 counterexample: with widths `[2, 3]` (sum 5, exceeding an
intended stream bin count of 4), `erb_fb` does not fail: the code
recomputes `n_freqs` as `sum(widths)` (modules.py line 137) and returns
a fully defined matrix — e.g. normalized forward entry (0,0) is 1/2 and
normalized inverse entry (1,4) is 1 — so no configuration error is
raised where the claim requires construction to fail. -/
theorem erb_fb_no_error_counterexample :
    4 < List.sum [2, 3]
    ∧ erb_fb [2, 3] true false 0 0 = 1 / 2
    ∧ erb_fb [2, 3] true true 1 4 = 1 := by
  refine ⟨by norm_num, ?_, ?_⟩
  · norm_num [erb_fb, erb_fb_raw, b_pts, Finset.sum_range_succ,
      Finset.sum_range_zero]
    rw [show (Finset.filter (fun x => x < 2) (Finset.range 5)).card = 2 by decide]
    norm_num
  · norm_num [erb_fb, erb_fb_raw, b_pts]

/-- C7 amended: `erb_fb` takes no separate `n_freqs` parameter; it
derives `n_freqs = sum(widths)` and construction always succeeds.
Nothing is truncated or reinterpreted: every band `i` occupies exactly
`widths[i]` of the `sum(widths)` matrix rows (its membership column sums
to `widths[i]`), and its membership is zero outside those rows. -/
theorem erb_fb_total_no_truncation (widths : List ℕ) (i : ℕ)
    (hi : i < widths.length) :
    (∑ r ∈ Finset.range widths.sum, erb_fb_raw widths r i
        = (widths.getD i 0 : ℚ))
    ∧ ∀ r, widths.sum ≤ r → erb_fb_raw widths r i = 0 :=
  ⟨erb_raw_colsum widths i hi, fun r hr => erb_fb_raw_ge_sum widths i r hi hr⟩

theorem erb_fb_total_no_truncation_witness :
    (∑ r ∈ Finset.range (List.sum [2, 3]), erb_fb_raw [2, 3] r 0
        = ((List.getD [2, 3] 0 0 : ℕ) : ℚ))
    ∧ erb_fb_raw [2, 3] 7 0 = 0 :=
  ⟨(erb_fb_total_no_truncation [2, 3] 0 (by decide)).1,
   (erb_fb_total_no_truncation [2, 3] 0 (by decide)).2 7 (by decide)⟩

/-- `view(-1, rows, cols)` of a flat vector: matrix entry (r, c) is flat
element `r * cols + c` (row-major, as torch views memory). -/
def view2 {α : Type} (cols : ℕ) (v : ℕ → α) : ℕ → ℕ → α :=
  fun r c => v (r * cols + c)

/-- `transpose(-1, -2)` of a matrix. -/
def transpose2 {α : Type} (m : ℕ → ℕ → α) : ℕ → ℕ → α := fun r c => m c r

/-- Row-major flattening of a matrix with `cols` columns. -/
def flatten2 {α : Type} (cols : ℕ) (m : ℕ → ℕ → α) : ℕ → α :=
  fun i => m (i / cols) (i % cols)

/-- The inter-layer shuffle of `GroupedLinear.forward` (modules.py lines
595-599) and `GroupedGRU.forward` (lines 558-561): the flat `G * C`
concatenated output (`C` = channels per group) is viewed as `[C, G]`
(`view(-1, self.hidden_size, self.groups)`, where `self.hidden_size` is
the per-group width), transposed to `[G, C]`, and flattened. -/
def groupShuffle {α : Type} (G C : ℕ) (v : ℕ → α) : ℕ → α :=
  flatten2 C (transpose2 (view2 G v))

/-- The shuffle exactly as the claim words it: view the concatenated
group-major output as `[groups, channels_per_group]`, transpose to
`[channels_per_group, groups]`, flatten. -/
def groupShuffleClaim {α : Type} (G C : ℕ) (v : ℕ → α) : ℕ → α :=
  flatten2 G (transpose2 (view2 C v))

/-- C4 counterexample: with `G = 2` groups of `C = 3` channels on the
vector `0,1,2,3,4,5`, the code's shuffle puts flat element 2 at position
1, while the claimed `[groups, channels_per_group]`-view-transpose puts
element 3 there; the two permutations differ (they are mutually
inverse, not equal). -/
theorem group_shuffle_counterexample :
    groupShuffle 2 3 (fun i => i) 1 = 2
    ∧ groupShuffleClaim 2 3 (fun i => i) 1 = 3
    ∧ groupShuffle 2 3 (fun i => i) 1 ≠ groupShuffleClaim 2 3 (fun i => i) 1 := by
  decide

/-- C4 amended: the code's inter-layer shuffle is the permutation that
moves the element at flat position `c * G + g` to flat position
`g * C + c`, i.e. it views the concatenated output as
`[channels_per_group, groups]`, transposes to
`[groups, channels_per_group]`, and flattens — the inverse of the
claimed permutation. -/
theorem group_shuffle_amended {α : Type} (G C : ℕ) (v : ℕ → α) (g c : ℕ)
    (_hg : g < G) (hc : c < C) :
    groupShuffle G C v (g * C + c) = v (c * G + g) := by
  unfold groupShuffle flatten2 transpose2 view2
  have hcomm : g * C + c = C * g + c := by rw [Nat.mul_comm]
  have h2 : (g * C + c) % C = c := by
    rw [hcomm, Nat.mul_add_mod, Nat.mod_eq_of_lt hc]
  have h1 : (g * C + c) / C = g := by
    rw [hcomm, Nat.mul_add_div (by omega : 0 < C), Nat.div_eq_of_lt hc,
      Nat.add_zero]
  rw [h2, h1]

theorem group_shuffle_amended_witness :
    groupShuffle 2 3 (fun i => i) (1 * 3 + 2) = (fun i => i) (2 * 2 + 1) :=
  group_shuffle_amended 2 3 (fun i => i) 1 2 (by decide) (by decide)

/-- Configuration retained by a constructed `GroupedLinear`
(modules.py lines 576-588): groups and per-group sizes. -/
structure GroupedLinearConfig where
  groups : ℕ
  group_input_size : ℕ
  group_hidden_size : ℕ

/-- `GroupedLinear.__init__` (modules.py line 576): the divisibility
asserts at lines 578-579 run before the per-group sizes are computed and
before any layers are built; a failing assert is modeled as `none`. -/
def groupedLinearInit (input_size hidden_size groups : ℕ) :
    Option GroupedLinearConfig :=
  if input_size % groups = 0 then
    if hidden_size % groups = 0 then
      some ⟨groups, input_size / groups, hidden_size / groups⟩
    else none
  else none

/-- Configuration retained by a constructed `GroupedGRULayer`
(modules.py lines 430-459). -/
structure GroupedGRULayerConfig where
  groups : ℕ
  group_input_size : ℕ
  group_hidden_size : ℕ
  out_size : ℕ

/-- `GroupedGRULayer.__init__` (modules.py line 430): the divisibility
asserts at lines 441-442 run before the per-group GRUs are built. -/
def groupedGRULayerInit (input_size hidden_size groups : ℕ) :
    Option GroupedGRULayerConfig :=
  if input_size % groups = 0 then
    if hidden_size % groups = 0 then
      some ⟨groups, input_size / groups, hidden_size / groups, hidden_size⟩
    else none
  else none

/-- C8: whenever `input_size` or `hidden_size` is not evenly divisible
by the number of groups, construction of a grouped GRU layer or grouped
linear block fails (assert fires) before any computation. -/
theorem grouped_init_fails_on_indivisible (input_size hidden_size groups : ℕ)
    (h : input_size % groups ≠ 0 ∨ hidden_size % groups ≠ 0) :
    groupedGRULayerInit input_size hidden_size groups = none
    ∧ groupedLinearInit input_size hidden_size groups = none := by
  constructor
  · unfold groupedGRULayerInit
    rcases h with h | h
    · rw [if_neg h]
    · by_cases h2 : input_size % groups = 0
      · rw [if_pos h2, if_neg h]
      · rw [if_neg h2]
  · unfold groupedLinearInit
    rcases h with h | h
    · rw [if_neg h]
    · by_cases h2 : input_size % groups = 0
      · rw [if_pos h2, if_neg h]
      · rw [if_neg h2]

theorem grouped_init_fails_on_indivisible_witness :
    groupedGRULayerInit 3 4 2 = none ∧ groupedLinearInit 3 4 2 = none :=
  grouped_init_fails_on_indivisible 3 4 2 (Or.inl (by decide))

/-- The per-frame smoothing input of `ExponentialUnitNorm.forward`
(modules.py line 218): `x.square().sum(-1).clamp_min(eps).sqrt()`, the
epsilon-clamped magnitude of the complex value. -/
noncomputable def x_abs_code (eps : ℝ) (x : ℕ → ℕ → ℝ × ℝ) (t f : ℕ) : ℝ :=
  Real.sqrt (max ((x t f).1 ^ 2 + (x t f).2 ^ 2) eps)

/-- The smoothing state of `ExponentialUnitNorm.forward` (modules.py
lines 219-223): `state = x_abs[t] * (1 - alpha) + state * alpha`,
started from the cloned per-bin `init_state` buffer `s0`. -/
noncomputable def unitNormState (alpha eps : ℝ) (s0 : ℕ → ℝ)
    (x : ℕ → ℕ → ℝ × ℝ) : ℕ → ℕ → ℝ
  | 0, f => x_abs_code eps x 0 f * (1 - alpha) + s0 f * alpha
  | t + 1, f => x_abs_code eps x (t + 1) f * (1 - alpha)
      + unitNormState alpha eps s0 x t f * alpha

/-- `ExponentialUnitNorm.forward` output (modules.py line 224):
`x / stack(out_states).sqrt()`. -/
noncomputable def unitNormForward (alpha eps : ℝ) (s0 : ℕ → ℝ)
    (x : ℕ → ℕ → ℝ × ℝ) (t f : ℕ) : ℝ × ℝ :=
  ((x t f).1 / Real.sqrt (unitNormState alpha eps s0 x t f),
   (x t f).2 / Real.sqrt (unitNormState alpha eps s0 x t f))

/-- The normalizer state exactly as the C2 claim words it: the state
smooths the squared-magnitude energy `Re² + Im²` itself (clamped from
below by epsilon), not its square root. -/
noncomputable def unitNormStateClaim (alpha eps : ℝ) (s0 : ℕ → ℝ)
    (x : ℕ → ℕ → ℝ × ℝ) : ℕ → ℕ → ℝ
  | 0, f => max ((x 0 f).1 ^ 2 + (x 0 f).2 ^ 2) eps * (1 - alpha)
      + s0 f * alpha
  | t + 1, f => max ((x (t + 1) f).1 ^ 2 + (x (t + 1) f).2 ^ 2) eps * (1 - alpha)
      + unitNormStateClaim alpha eps s0 x t f * alpha

/-- The normalizer output as the C2 claim words it: `x_t / sqrt(state)`
with the energy-smoothed state. -/
noncomputable def unitNormForwardClaim (alpha eps : ℝ) (s0 : ℕ → ℝ)
    (x : ℕ → ℕ → ℝ × ℝ) (t f : ℕ) : ℝ × ℝ :=
  ((x t f).1 / Real.sqrt (unitNormStateClaim alpha eps s0 x t f),
   (x t f).2 / Real.sqrt (unitNormStateClaim alpha eps s0 x t f))

/-- C2 counterexample: on the single frame `x = 2 + 0i` with alpha 1/2,
per-bin initial state 1 and epsilon 1e-14, the code smooths the clamped
magnitude `sqrt(max(4, eps)) = 2` giving state `3/2` and output
`2 / sqrt(3/2)`, while the claimed squared-magnitude update gives state
`4·(1/2) + 1·(1/2) = 5/2` and output `2 / sqrt(5/2)`; these differ. -/
theorem unit_norm_energy_counterexample :
    unitNormForward (1/2) (1e-14) (fun _ => 1) (fun _ _ => ((2:ℝ), 0)) 0 0
      ≠ unitNormForwardClaim (1/2) (1e-14) (fun _ => 1) (fun _ _ => ((2:ℝ), 0)) 0 0 := by
  have hmax : max (((2:ℝ)) ^ 2 + (0:ℝ) ^ 2) (1e-14) = 4 := by
    rw [max_eq_left (by norm_num)]
    norm_num
  have hsqrt4 : Real.sqrt 4 = 2 := by
    rw [show (4:ℝ) = 2 ^ 2 by norm_num, Real.sqrt_sq (by norm_num : (0:ℝ) ≤ 2)]
  have hs1 : unitNormState (1/2) (1e-14) (fun _ => 1)
      (fun _ _ => ((2:ℝ), 0)) 0 0 = 3/2 := by
    simp only [unitNormState, x_abs_code]
    rw [hmax, hsqrt4]
    norm_num
  have hs2 : unitNormStateClaim (1/2) (1e-14) (fun _ => 1)
      (fun _ _ => ((2:ℝ), 0)) 0 0 = 5/2 := by
    simp only [unitNormStateClaim]
    rw [hmax]
    norm_num
  intro h
  have h1 := congrArg Prod.fst h
  simp only [unitNormForward, unitNormForwardClaim] at h1
  rw [hs1, hs2] at h1
  have hlt : Real.sqrt (3/2) < Real.sqrt (5/2) :=
    Real.sqrt_lt_sqrt (by norm_num) (by norm_num)
  have hpos : 0 < Real.sqrt (3/2) := Real.sqrt_pos.mpr (by norm_num)
  have hne : (2:ℝ) / Real.sqrt (5/2) < 2 / Real.sqrt (3/2) :=
    div_lt_div_of_pos_left (by norm_num) hpos hlt
  rw [h1] at hne
  exact lt_irrefl _ hne

/-- The normalizer state as the amended C2 claim words it: the smoothed
quantity is the magnitude `sqrt(max(Re² + Im², 1e-14))` — the square
root of the epsilon-clamped squared-magnitude energy — updated as
`state = mag * (1 - alpha) + state_prev * alpha`. -/
noncomputable def unitNormStateAmended (alpha eps : ℝ) (s0 : ℕ → ℝ)
    (x : ℕ → ℕ → ℝ × ℝ) : ℕ → ℕ → ℝ
  | 0, f => Real.sqrt (max ((x 0 f).1 ^ 2 + (x 0 f).2 ^ 2) eps) * (1 - alpha)
      + s0 f * alpha
  | t + 1, f => Real.sqrt (max ((x (t + 1) f).1 ^ 2 + (x (t + 1) f).2 ^ 2) eps)
      * (1 - alpha) + unitNormStateAmended alpha eps s0 x t f * alpha

/-- The normalizer output as the amended C2 claim words it:
`x_t / sqrt(state)` over the magnitude-smoothed state. -/
noncomputable def unitNormForwardAmended (alpha eps : ℝ) (s0 : ℕ → ℝ)
    (x : ℕ → ℕ → ℝ × ℝ) (t f : ℕ) : ℝ × ℝ :=
  ((x t f).1 / Real.sqrt (unitNormStateAmended alpha eps s0 x t f),
   (x t f).2 / Real.sqrt (unitNormStateAmended alpha eps s0 x t f))

/-- C2 amended: the code's normalizer smooths the epsilon-clamped
magnitude (square root of the clamped energy), not the energy; with that
correction the per-frame update and the `x_t / sqrt(state)` output hold
for every input, frame and bin. -/
theorem unit_norm_matches_amended (alpha eps : ℝ) (s0 : ℕ → ℝ)
    (x : ℕ → ℕ → ℝ × ℝ) (t f : ℕ) :
    unitNormForward alpha eps s0 x t f
      = unitNormForwardAmended alpha eps s0 x t f := by
  have hstate : ∀ u g, unitNormState alpha eps s0 x u g
      = unitNormStateAmended alpha eps s0 x u g := by
    intro u
    induction u with
    | zero =>
      intro g
      simp [unitNormState, unitNormStateAmended, x_abs_code]
    | succ u ih =>
      intro g
      simp [unitNormState, unitNormStateAmended, x_abs_code, ih]
  simp [unitNormForward, unitNormForwardAmended, hstate]

/-- The module state of `ExponentialUnitNorm` (modules.py lines
207-213): the scalar constants and the registered per-bin `init_state`
buffer. -/
structure ExponentialUnitNormModule where
  alpha : ℝ
  eps : ℝ
  init_state : ℕ → ℝ

/-- A full `ExponentialUnitNorm.forward` call at module level
(modules.py lines 215-224): the only buffer access is
`self.init_state.clone()` (line 219); the recurrence rebinds the local
clone, the stored buffer is never assigned, and the call signature has
no state-in or state-out parameter, so a call returns the output
together with the unchanged module. -/
noncomputable def exponentialUnitNormCall (m : ExponentialUnitNormModule)
    (x : ℕ → ℕ → ℝ × ℝ) : (ℕ → ℕ → ℝ × ℝ) × ExponentialUnitNormModule :=
  (fun t f => unitNormForward m.alpha m.eps m.init_state x t f, m)

/-- C10: the forward call is stateless at module level: it leaves the
module — in particular the `init_state` buffer — unchanged, a repeated
call on the same input returns an identical output, and every call
restarts the exponential recurrence from the fixed frequency-dependent
initial state `m.init_state`. -/
theorem unit_norm_call_stateless (m : ExponentialUnitNormModule)
    (x : ℕ → ℕ → ℝ × ℝ) :
    (exponentialUnitNormCall m x).2 = m
    ∧ (exponentialUnitNormCall (exponentialUnitNormCall m x).2 x).1
        = (exponentialUnitNormCall m x).1
    ∧ ∀ t f, (exponentialUnitNormCall m x).1 t f
        = unitNormForward m.alpha m.eps m.init_state x t f :=
  ⟨rfl, rfl, fun _ _ => rfl⟩

/-- The dB-to-linear conversion of the attenuation limit
(modules.py line 178): `10 ** (-atten_lim / 20)`. -/
noncomputable def attenFloor (db : ℝ) : ℝ := (10 : ℝ) ^ (-db / 20)

/-- `Mask.pf` (modules.py lines 165-168): the post-filter curve with
`mask_sin = mask * sin(pi * mask / 2)` and
`mask_pf = (1 + beta) * mask
           / (1 + beta * (mask / clamp_min(mask_sin, eps)) ** 2)`. -/
noncomputable def maskPf (m beta eps : ℝ) : ℝ :=
  (1 + beta) * m
    / (1 + beta * (m / max (m * Real.sin (Real.pi * m / 2)) eps) ^ 2)

/-- The post-filter exactly as the C3 claim words it:
`(1+β)·m / (1 + β·(m / sin(π·m/2))²)`, the sine-based denominator term
clamped from below by the epsilon floor. -/
noncomputable def maskPfClaim (m beta eps : ℝ) : ℝ :=
  (1 + beta) * m
    / (1 + beta * (m / max (Real.sin (Real.pi * m / 2)) eps) ^ 2)

/-- `Mask.forward` (modules.py lines 170-189) for one batch item: the
post-filter runs only when `not self.training and self.post_filter`
(line 174, with the fixed default `beta = 0.02`); a supplied dB limit is
converted to the linear floor and the mask clamped from below (lines
176-187); the mask is then projected to linear frequencies through the
normalized inverse ERB matrix (`mask.matmul(self.erb_inv_fb)`, line 188)
and multiplied into the complex spectrum (line 189). -/
noncomputable def maskForward (training post_filter : Bool) (eps : ℝ)
    (widths : List ℕ) (spec : ℕ → ℕ → ℝ × ℝ) (mask : ℕ → ℕ → ℝ)
    (atten_lim : Option ℝ) (t f : ℕ) : ℝ × ℝ :=
  let m1 : ℕ → ℕ → ℝ :=
    if training = false ∧ post_filter = true
    then fun u b => maskPf (mask u b) 0.02 eps
    else mask
  let m2 : ℕ → ℕ → ℝ :=
    match atten_lim with
    | some db => fun u b => max (m1 u b) (attenFloor db)
    | none => m1
  let mproj : ℝ := ∑ b ∈ Finset.range widths.length,
    m2 t b * ((erb_fb widths true true b f : ℚ) : ℝ)
  ((spec t f).1 * mproj, (spec t f).2 * mproj)

/-- C3 counterexample: at mask value `1/2` (with β = 0.02 and the code's
eps = 1e-12), the code's curve divides the mask by
`clamp(m·sin(π·m/2))`, giving ratio squared 2 and output `51/104`, while
the claimed formula divides by `clamp(sin(π·m/2))`, giving ratio squared
`1/2` and output `51/101`; the two values differ. -/
theorem mask_pf_formula_counterexample :
    maskPf (1/2) (2/100) (1e-12) ≠ maskPfClaim (1/2) (2/100) (1e-12) := by
  have hπ : Real.pi * (1/2) / 2 = Real.pi / 4 := by ring
  have hsin : Real.sin (Real.pi * (1/2) / 2) = Real.sqrt 2 / 2 := by
    rw [hπ, Real.sin_pi_div_four]
  have h1le : (1:ℝ) ≤ Real.sqrt 2 := by
    have h := Real.sqrt_le_sqrt (show (1:ℝ) ≤ 2 by norm_num)
    rwa [Real.sqrt_one] at h
  have hsq : Real.sqrt 2 ^ 2 = 2 := Real.sq_sqrt (by norm_num)
  have h22 : (Real.sqrt 2 / 2) ^ 2 = 1 / 2 := by
    rw [div_pow, hsq]
    norm_num
  have hcode : maskPf (1/2) (2/100) (1e-12) = 51 / 104 := by
    unfold maskPf
    rw [hsin, max_eq_left (by nlinarith [h1le] : (1e-12:ℝ) ≤ 1/2 * (Real.sqrt 2 / 2))]
    have hr : ((1:ℝ)/2 / (1/2 * (Real.sqrt 2 / 2))) ^ 2 = 2 := by
      rw [div_pow, mul_pow, h22]
      norm_num
    rw [hr]
    norm_num
  have hclaim : maskPfClaim (1/2) (2/100) (1e-12) = 51 / 101 := by
    unfold maskPfClaim
    rw [hsin, max_eq_left (by nlinarith [h1le] : (1e-12:ℝ) ≤ Real.sqrt 2 / 2)]
    have hr : ((1:ℝ)/2 / (Real.sqrt 2 / 2)) ^ 2 = 1 / 2 := by
      rw [div_pow, h22]
      norm_num
    rw [hr]
    norm_num
  rw [hcode, hclaim]
  norm_num

/-- The post-filter as the amended C3 claim words it: the denominator
ratio divides the mask by the epsilon-clamped product
`mask · sin(π·mask/2)`. -/
noncomputable def maskPfAmended (m beta eps : ℝ) : ℝ :=
  (1 + beta) * m
    / (1 + beta * (m / max (m * Real.sin (Real.pi * m / 2)) eps) ^ 2)

/-- C3 amended: the post-filter computes
`mask' = (1+β)·m / (1 + β·(m / clamp(m·sin(π·m/2), ε))²)` with β = 0.02
— the epsilon clamp guards the product `m·sin(π·m/2)`, not the bare sine
— and it is applied only at inference time: in training mode the masking
stage output is independent of the `post_filter` flag, while at
inference with the flag set the projected mask is built from the
post-filtered values with β = 0.02. -/
theorem mask_pf_amended (m beta eps : ℝ) (pfFlag : Bool) (widths : List ℕ)
    (spec : ℕ → ℕ → ℝ × ℝ) (mask : ℕ → ℕ → ℝ) (al : Option ℝ) (t f : ℕ) :
    maskPf m beta eps = maskPfAmended m beta eps
    ∧ maskForward true pfFlag eps widths spec mask al t f
        = maskForward true false eps widths spec mask al t f
    ∧ maskForward false true eps widths spec mask none t f
        = ((spec t f).1 * ∑ b ∈ Finset.range widths.length,
            maskPf (mask t b) 0.02 eps * ((erb_fb widths true true b f : ℚ) : ℝ),
           (spec t f).2 * ∑ b ∈ Finset.range widths.length,
            maskPf (mask t b) 0.02 eps * ((erb_fb widths true true b f : ℚ) : ℝ)) := by
  refine ⟨rfl, ?_, ?_⟩
  · simp [maskForward]
  · simp [maskForward]

/-- C9: with a per-item attenuation limit of 0 dB the linear floor
`10^(-0/20)` is 1, a pre-floor mask value of 0.3 is clamped up to 1.0,
and — since every mask value (all ≤ 1) is clamped up to exactly 1 before
projection through the normalized inverse ERB matrix, whose columns sum
to 1 on covered bins — the masked spectrum at every bin below
`sum(widths)` equals the unmasked input spectrum. -/
theorem mask_atten_limit_zero_db (widths : List ℕ) (spec : ℕ → ℕ → ℝ × ℝ)
    (mask : ℕ → ℕ → ℝ) (training : Bool) (eps : ℝ) (t f : ℕ)
    (hmask : ∀ b, mask t b ≤ 1) (hf : f < widths.sum) :
    attenFloor 0 = 1
    ∧ max ((3:ℝ)/10) (attenFloor 0) = 1
    ∧ maskForward training false eps widths spec mask (some 0) t f = spec t f := by
  have hfloor : attenFloor 0 = 1 := by
    unfold attenFloor
    rw [show (-(0:ℝ) / 20) = 0 by norm_num, Real.rpow_zero]
  refine ⟨hfloor, ?_, ?_⟩
  · rw [hfloor]
    exact max_eq_right (by norm_num)
  · simp only [maskForward, Bool.false_eq_true, and_false, if_false]
    rw [hfloor]
    have hsum : ∑ b ∈ Finset.range widths.length,
        max (mask t b) 1 * ((erb_fb widths true true b f : ℚ) : ℝ)
        = ∑ b ∈ Finset.range widths.length, ((erb_fb_raw widths f b : ℚ) : ℝ) := by
      apply Finset.sum_congr rfl
      intro b _
      rw [max_eq_right (hmask b), one_mul]
      rfl
    rw [hsum, ← Rat.cast_sum, erb_raw_rowsum widths f hf]
    simp

theorem mask_atten_limit_zero_db_witness :
    attenFloor 0 = 1
    ∧ max ((3:ℝ)/10) (attenFloor 0) = 1
    ∧ maskForward false false (1e-12) [2, 3] (fun _ _ => ((5:ℝ), (7:ℝ)))
        (fun _ _ => (3:ℝ)/10) (some 0) 0 1 = ((5:ℝ), (7:ℝ)) :=
  mask_atten_limit_zero_db [2, 3] (fun _ _ => ((5:ℝ), (7:ℝ)))
    (fun _ _ => (3:ℝ)/10) false (1e-12) 0 1 (fun _ => by norm_num) (by decide)
